import Mathlib

/-!
Shallow embedding of the hybrid retrieval engine of `src/vector_store.py`
(`class VectorStore`), together with proofs of the specification claims.

Modelling conventions:
* machine floats become real numbers (`ℝ`);
* the external Gemini embedding provider (`genai.embed_content`) is a
  parameter: a batch-embedding function for `add_chunks` and an optional
  query vector for `search` (`none` models a raised provider error);
* the external `rank_bm25.BM25Okapi.get_scores` call is a parameter
  `br : List (List String) → List String → List ℝ` mapping the corpus the
  index was built on and the tokenized query to raw scores;
* the on-disk files of `_save_to_disk` / `_load_from_disk` become a `Disk`
  record of optional parsed values (`none` = file absent);
* a Python exception escaping a method is modelled by a `Bool` success flag
  (`false` = raised), with the state threaded explicitly.
-/

namespace VectorStore

abbrev Vec := List ℝ

/-- Dot product of two rows, `np.dot` on equal-length vectors. -/
def dot (a b : Vec) : ℝ := (List.zipWith (· * ·) a b).sum

/-- Euclidean norm, `np.linalg.norm`. -/
noncomputable def norm2 (v : Vec) : ℝ := Real.sqrt (dot v v)

/-- Tokenizer `_tokenize`: `text.lower().split()` (split on whitespace,
dropping empty pieces, as Python's argumentless `split` does). -/
def tokenize (text : String) : List String :=
  (text.toLower.split (fun c => c.isWhitespace)).filter (fun s => s ≠ "")

/-- Chunk payload passed to `add_chunks` (the dict fields read from each
element of `chunks`). -/
structure ChunkInput where
  text : String
  chunk_index : Nat
  filename : String
  char_count : Nat
  approx_tokens : Nat

/-- Chunk record stored in `self.chunks_metadata`. -/
structure Chunk where
  document_id : String
  chunk_id : String
  text : String
  chunk_index : Nat
  filename : String
  char_count : Nat
  approx_tokens : Nat
deriving DecidableEq

/-- Document status record stored in `self.document_metadata`. -/
structure DocMeta where
  document_id : String
  filename : String
  status : String
  chunks_count : Nat
  processed_at : Option String
deriving DecidableEq

/-- In-memory engine state: the five mutable attributes of `VectorStore`.
`bm25 = true` models `self.bm25` holding a built `BM25Okapi` index (the
code always rebuilds it from the current `tokenized_corpus`). -/
structure Store where
  vectors : Option (List Vec)
  chunks_metadata : List Chunk
  document_metadata : List (String × DocMeta)
  tokenized_corpus : List (List String)
  bm25 : Bool

/-- Parsed content of the three files under the storage root
(`vectors.npy`, `chunks_metadata.pkl`, `document_metadata.json`);
`none` models an absent file. -/
structure Disk where
  vectors_file : Option (List Vec)
  chunks_file : Option (List Chunk)
  docs_file : Option (List (String × DocMeta))

/-- State of a store object freshly constructed before `_load_from_disk`. -/
def emptyStore : Store :=
  { vectors := none, chunks_metadata := [], document_metadata := [],
    tokenized_corpus := [], bm25 := false }

/-- An empty storage directory. -/
def emptyDisk : Disk := { vectors_file := none, chunks_file := none, docs_file := none }

/-- Persistence, `_save_to_disk`: the dense matrix is written only when it
is initialized; the chunk records and document records are always
written. -/
def save_to_disk (st : Store) (dk : Disk) : Disk :=
  { vectors_file := match st.vectors with
      | none => dk.vectors_file
      | some m => some m
    chunks_file := some st.chunks_metadata
    docs_file := some st.document_metadata }

/-- Construction-time load, `_load_from_disk`: each file is read if
present; the sparse corpus and index are rebuilt from the loaded chunk
records when they are nonempty. -/
def load_from_disk (dk : Disk) : Store :=
  let chunks := dk.chunks_file.getD []
  { vectors := dk.vectors_file
    chunks_metadata := chunks
    document_metadata := dk.docs_file.getD []
    tokenized_corpus := chunks.map (fun c => tokenize c.text)
    bm25 := !chunks.isEmpty }

/-- External batch document-embedding call: one `genai.embed_content`
request on a batch of texts; `none` models a raised provider error. -/
def Provider : Type := List String → Option (List Vec)

/-- The batching loop of `add_chunks`: process `texts` in batches of 20,
concatenating the embeddings; fail if any batch fails. -/
def embedAll (p : Provider) (texts : List String) : Option (List Vec) :=
  match texts with
  | [] => some []
  | t :: rest =>
    match p ((t :: rest).take 20), embedAll p ((t :: rest).drop 20) with
    | some b, some bs => some (b ++ bs)
    | _, _ => none
termination_by texts.length
decreasing_by simp; omega

/-- Chunk record built by `add_chunks` for the chunk at position `i` of
the call's input sequence. -/
def mkChunkMeta (document_id : String) (i : Nat) (c : ChunkInput) : Chunk :=
  { document_id := document_id
    chunk_id := document_id ++ "_chunk_" ++ toString i
    text := c.text
    chunk_index := c.chunk_index
    filename := c.filename
    char_count := c.char_count
    approx_tokens := c.approx_tokens }

/-- Engine operation `add_chunks(document_id, chunks)`. The returned
`Bool` is the success flag: `false` models the re-raised embedding
exception, in which case the code has mutated nothing (all assignments to
`self` fields come after the embedding loop). -/
def add_chunks (p : Provider) (document_id : String) (chunks : List ChunkInput)
    (st : Store) (dk : Disk) : (Store × Disk) × Bool :=
  if chunks.isEmpty then ((st, dk), true)
  else
    let texts := chunks.map (fun c => c.text)
    match embedAll p texts with
    | none => ((st, dk), false)
    | some embs =>
      let newVectors : List Vec :=
        match st.vectors with
        | none => embs
        | some m => m ++ embs
      let newCorpus := st.tokenized_corpus ++ texts.map tokenize
      let newBm25 := if newCorpus.isEmpty then st.bm25 else true
      let newChunks := st.chunks_metadata ++
        chunks.enum.map (fun ic => mkChunkMeta document_id ic.1 ic.2)
      let st2 : Store :=
        { vectors := some newVectors
          chunks_metadata := newChunks
          document_metadata := st.document_metadata
          tokenized_corpus := newCorpus
          bm25 := newBm25 }
      ((st2, save_to_disk st2 dk), true)

/-- Truthiness of an optional Python string (`None` and `""` are falsy). -/
def truthy : Option String → Bool
  | none => false
  | some s => s ≠ ""

/-- Engine operation `update_document_status(...)`: upsert of the document
status record, with best-effort filename backfill from the chunk records
on first creation. -/
def update_document_status (document_id status : String) (chunks_count : Nat)
    (processed_at : Option String) (filename : Option String)
    (st : Store) (dk : Disk) : Store × Disk :=
  match (st.document_metadata.lookup document_id : Option DocMeta) with
  | none =>
    let fname :=
      if truthy filename then filename.getD "unknown"
      else (((st.chunks_metadata.find? (fun c => c.document_id == document_id)).map
        (fun c => c.filename)).getD "unknown")
    let dm : DocMeta :=
      { document_id := document_id, filename := fname, status := status,
        chunks_count := chunks_count, processed_at := processed_at }
    let st2 := { st with document_metadata := st.document_metadata ++ [(document_id, dm)] }
    (st2, save_to_disk st2 dk)
  | some old =>
    let fname := if truthy filename then filename.getD old.filename else old.filename
    let dm : DocMeta :=
      { old with status := status
                 chunks_count := chunks_count
                 processed_at := processed_at
                 filename := fname }
    let st2 := { st with document_metadata :=
      st.document_metadata.map (fun kv => if kv.1 == document_id then (kv.1, dm) else kv) }
    (st2, save_to_disk st2 dk)

/-- Engine read `get_document_status(document_id)`. -/
def get_document_status (document_id : String) (st : Store) : Option DocMeta :=
  st.document_metadata.lookup document_id

/-- Engine read `list_documents()`. -/
def list_documents (st : Store) : List DocMeta :=
  st.document_metadata.map (fun kv => kv.2)

/-- Engine read `has_documents()`. -/
def has_documents (st : Store) : Bool :=
  st.chunks_metadata.length > 0

/-- Engine operation `delete_document(document_id)`; the `Bool` is the
returned value. -/
def delete_document (document_id : String) (st : Store) (dk : Disk) :
    (Store × Disk) × Bool :=
  if (st.document_metadata.lookup document_id : Option DocMeta).isNone then
    ((st, dk), false)
  else
    let docs2 := st.document_metadata.eraseP (fun kv => kv.1 == document_id)
    let remaining := st.chunks_metadata.enum.filterMap
      (fun ic => if ic.2.document_id = document_id then none else some ic.1)
    if remaining.length = st.chunks_metadata.length then
      (({ st with document_metadata := docs2 }, dk), false)
    else
      let newChunks := remaining.filterMap (fun i => st.chunks_metadata[i]?)
      let newVectors : Option (List Vec) :=
        match st.vectors with
        | none => none
        | some m => some (remaining.filterMap (fun i => m[i]?))
      if newChunks.isEmpty then
        let st2 : Store :=
          { vectors := none, chunks_metadata := newChunks,
            document_metadata := docs2, tokenized_corpus := [], bm25 := false }
        ((st2, save_to_disk st2 dk), true)
      else
        let st2 : Store :=
          { vectors := newVectors, chunks_metadata := newChunks,
            document_metadata := docs2,
            tokenized_corpus := newChunks.map (fun c => tokenize c.text),
            bm25 := true }
        ((st2, save_to_disk st2 dk), true)

/-- Query normalization of `search`: divide by the norm unless it is 0. -/
noncomputable def normQuery (q : Vec) : Vec :=
  if norm2 q > 0 then q.map (fun x => x / norm2 q) else q

/-- Cosine score of one stored row against the (normalized) query, with
the zero row-norm guard `doc_norms[doc_norms == 0] = 1.0`. -/
noncomputable def denseScore (q2 v : Vec) : ℝ :=
  dot v q2 / (if norm2 v = 0 then 1 else norm2 v)

/-- Dense scoring block of `search`: given the query embedding (`none`
when the provider call raised), normalize the query, check the dimension,
and compute the per-row cosine scores; `none` also models the
dimension-mismatch branch, which leaves `vector_results` empty. -/
noncomputable def vectorResults (qEmb : Option Vec) (m : List Vec) : Option (List ℝ) :=
  match qEmb with
  | none => none
  | some q =>
    if (m.headD []).length = (normQuery q).length then
      some (m.map (denseScore (normQuery q)))
    else none

/-- Maximum of a list of raw sparse scores;
`max(bm25_scores) if len(bm25_scores) > 0 else 1.0`. -/
noncomputable def listMax : List ℝ → ℝ
  | [] => 1
  | x :: xs => xs.foldl max x

/-- Sparse scoring block of `search`: when the index exists, min-max
normalize the raw scores by the maximum (treated as 1 when it is 0). -/
noncomputable def bm25Results (raw : List ℝ) (hasIndex : Bool) : Option (List ℝ) :=
  if hasIndex then
    let m := listMax raw
    let m2 := if m = 0 then 1 else m
    some (raw.map (fun s => s / m2))
  else none

/-- Lookup `results.get(idx, 0.0)` on an optional score list whose keys
are the list positions. -/
def pathScore (o : Option (List ℝ)) (idx : Nat) : ℝ := (o.getD []).getD idx 0

/-- Number of keys of an optional score list. -/
def optLen (o : Option (List ℝ)) : Nat := (o.getD []).length

/-- Candidate filter `if document_id and chunk_meta['document_id'] !=
document_id: continue` — a chunk is kept when the filter is falsy
(`None` or `""`) or matches. -/
def keepChunk (document_id : Option String) (c : Chunk) : Bool :=
  match document_id with
  | none => true
  | some d => d = "" || c.document_id = d

/-- A returned search result: the copied chunk record plus the three
score fields written into it. -/
structure SearchResult where
  chunk : Chunk
  score : ℝ
  vector_score : ℝ
  bm25_score : ℝ

/-- Fusion loop of `search`: iterate over the union of scored indexes
(a CPython set of the small ints `0..n-1`, iterated in increasing order),
skip out-of-range indexes, apply the document filter, and fuse. -/
noncomputable def candidates (vr sr : Option (List ℝ)) (chunks : List Chunk)
    (document_id : Option String) (alpha : ℝ) : List SearchResult :=
  (List.range (max (optLen vr) (optLen sr))).filterMap (fun idx =>
    match chunks[idx]? with
    | none => none
    | some c =>
      if keepChunk document_id c then
        let v := pathScore vr idx
        let b := pathScore sr idx
        some { chunk := c, score := alpha * v + (1 - alpha) * b,
               vector_score := v, bm25_score := b }
      else none)

/-- Comparison used by the final `final_results.sort(key=..., reverse=True)`:
a stable sort placing higher fused scores first. -/
noncomputable def scoreLe (a b : SearchResult) : Bool := decide (b.score ≤ a.score)

/-- Engine operation `search(query, top_k, document_id, alpha)`,
parametrized by the query-embedding answer `qEmb` and the external raw
sparse scorer `br`. Always returns (never raises). -/
noncomputable def search (qEmb : Option Vec)
    (br : List (List String) → List String → List ℝ) (st : Store)
    (query : String) (top_k : Nat) (document_id : Option String) (alpha : ℝ) :
    List SearchResult :=
  if st.vectors.isNone || st.chunks_metadata.isEmpty then []
  else
    let vr := vectorResults qEmb (st.vectors.getD [])
    let sr := bm25Results (br st.tokenized_corpus (tokenize query)) st.bm25
    (List.mergeSort (candidates vr sr st.chunks_metadata document_id alpha) scoreLe).take top_k

/-- The candidate pool of a `search` call before ranking and truncation:
the fusion loop's output, in increasing chunk-index order. -/
noncomputable def searchCandidates (qEmb : Option Vec)
    (br : List (List String) → List String → List ℝ) (st : Store)
    (query : String) (document_id : Option String) (alpha : ℝ) :
    List SearchResult :=
  candidates (vectorResults qEmb (st.vectors.getD []))
    (bm25Results (br st.tokenized_corpus (tokenize query)) st.bm25)
    st.chunks_metadata document_id alpha

/-- One engine call in a mutation sequence. -/
inductive Op where
  | add (document_id : String) (chunks : List ChunkInput)
  | del (document_id : String)
  | status (document_id stat : String) (chunks_count : Nat)
      (processed_at : Option String) (filename : Option String)

/-- Apply one operation to the paired in-memory/on-disk state. -/
def applyOp (p : Provider) (s : Store × Disk) : Op → Store × Disk
  | Op.add d cs => (add_chunks p d cs s.1 s.2).1
  | Op.del d => (delete_document d s.1 s.2).1
  | Op.status d stat n at_ f => update_document_status d stat n at_ f s.1 s.2

/-- Run a call sequence from a freshly constructed engine over an empty
storage root. -/
def runOps (p : Provider) (ops : List Op) : Store × Disk :=
  ops.foldl (applyOp p) (load_from_disk emptyDisk, emptyDisk)

/-- Row count of the dense matrix, 0 when uninitialized. -/
def rowCount : Option (List Vec) → Nat
  | none => 0
  | some m => m.length

/-- A provider that honours the interface contract of §6: a successful
batch call returns one vector per input text. -/
def ProviderLen (p : Provider) : Prop :=
  ∀ ts out, p ts = some out → out.length = ts.length

/-- The index-alignment invariant: chunk records, dense rows and sparse
corpus entries are index-aligned, with the corpus entry at position `i`
being the tokenization of the chunk record at position `i`. -/
def Aligned (st : Store) : Prop :=
  rowCount st.vectors = st.chunks_metadata.length ∧
  st.tokenized_corpus = st.chunks_metadata.map (fun c => tokenize c.text)

/-- Well-formedness of an in-memory state as the engine maintains it: the
corpus is the tokenization of the chunk records, the sparse index exists
exactly when chunks exist, and an uninitialized matrix means no chunks. -/
def WF (st : Store) : Prop :=
  st.tokenized_corpus = st.chunks_metadata.map (fun c => tokenize c.text) ∧
  st.bm25 = !st.chunks_metadata.isEmpty ∧
  (st.vectors = none → st.chunks_metadata = [])

/-! Concrete data used by witnesses and counterexamples. -/

/-- Concrete chunk record of document `doc1`. -/
def cA : Chunk := ⟨"doc1", "doc1_chunk_0", "cats are mammals", 0, "a.txt", 16, 4⟩

/-- Concrete chunk record of document `doc2`. -/
def cB : Chunk := ⟨"doc2", "doc2_chunk_0", "dogs are mammals", 0, "b.txt", 16, 4⟩

/-- Concrete status record of `doc1`. -/
def dmA : DocMeta := ⟨"doc1", "a.txt", "completed", 1, some "2024-01-01"⟩

/-- Concrete status record of `doc2`. -/
def dmB : DocMeta := ⟨"doc2", "b.txt", "completed", 1, some "2024-01-01"⟩

/-- Concrete store holding one chunk for each of two documents, with
one-dimensional embeddings. -/
def stA : Store :=
  ⟨some [[1], [1]], [cA, cB], [("doc1", dmA), ("doc2", dmB)],
    [tokenize cA.text, tokenize cB.text], true⟩

/-- Concrete store whose `doc1` status record exists but owns no chunks
(as after an upload that has not finished processing). -/
def stD : Store := ⟨none, [], [("doc1", dmA)], [], false⟩

/-- Concrete store holding a single chunk of `doc1`. -/
def stE : Store := ⟨some [[1]], [cA], [("doc1", dmA)], [tokenize cA.text], true⟩

end VectorStore

namespace VectorStore

/-! ### Arithmetic facts about the embedded vector operations -/

theorem dot_cons (a b : ℝ) (as bs : Vec) :
    dot (a :: as) (b :: bs) = a * b + dot as bs := by
  simp [dot]

theorem dot_self_nonneg (v : Vec) : 0 ≤ dot v v := by
  induction v with
  | nil => simp [dot]
  | cons x xs ih => rw [dot_cons]; nlinarith [sq_nonneg x]

theorem dot_sq_le_dot_mul_dot (a b : Vec) : dot a b ^ 2 ≤ dot a a * dot b b := by
  induction a generalizing b with
  | nil => simp [dot]
  | cons x xs ih =>
    cases b with
    | nil => simp [dot, dot_self_nonneg, mul_nonneg (dot_self_nonneg (x :: xs))]
    | cons y ys =>
      have h := ih ys
      have hA := dot_self_nonneg xs
      have hB := dot_self_nonneg ys
      simp only [dot_cons]
      rcases eq_or_lt_of_le hB with hB0 | hBpos
      · have hS2 : dot xs ys ^ 2 = 0 :=
          le_antisymm (by nlinarith [hB0, h]) (sq_nonneg _)
        have hS : dot xs ys = 0 := pow_eq_zero_iff two_ne_zero |>.1 hS2
        rw [hS, ← hB0]
        nlinarith [mul_nonneg hA (sq_nonneg y)]
      · nlinarith [mul_nonneg (sub_nonneg.2 h) hB,
          mul_nonneg (sub_nonneg.2 h) (sq_nonneg y),
          sq_nonneg (x * dot ys ys - y * dot xs ys), hBpos]

theorem dot_eq_zero_of_right (v q : Vec) (h : dot q q = 0) : dot v q = 0 := by
  have hcs := dot_sq_le_dot_mul_dot v q
  rw [h, mul_zero] at hcs
  have h0 : dot v q ^ 2 = 0 := le_antisymm hcs (sq_nonneg _)
  exact pow_eq_zero_iff (two_ne_zero) |>.1 h0

theorem dot_map_div_right (v q : Vec) (c : ℝ) :
    dot v (q.map (fun x => x / c)) = dot v q / c := by
  induction v generalizing q with
  | nil => simp [dot]
  | cons x xs ih =>
    cases q with
    | nil => simp [dot]
    | cons y ys =>
      rw [List.map_cons, dot_cons, dot_cons, ih, add_div, mul_div_assoc]

theorem dot_map_div_self (q : Vec) (c : ℝ) :
    dot (q.map (fun x => x / c)) (q.map (fun x => x / c)) = dot q q / (c * c) := by
  induction q with
  | nil => simp [dot]
  | cons y ys ih =>
    rw [List.map_cons, dot_cons, dot_cons, ih, add_div, div_mul_div_comm]

theorem norm2_nonneg (v : Vec) : 0 ≤ norm2 v := Real.sqrt_nonneg _

theorem norm2_eq_zero_iff (v : Vec) : norm2 v = 0 ↔ dot v v = 0 := by
  unfold norm2
  rw [Real.sqrt_eq_zero']
  constructor
  · intro h; exact le_antisymm h (dot_self_nonneg v)
  · intro h; exact le_of_eq h

theorem sq_norm2 (v : Vec) : norm2 v ^ 2 = dot v v := Real.sq_sqrt (dot_self_nonneg v)

/-! ### Claim C5: searching an empty store -/

/-- C5. If the store holds zero chunks, `search` returns the empty result
list for every query embedding, sparse scorer, query, `top_k`, document
filter and `alpha`, and (being a total function) raises no error. -/
theorem search_empty_store (qEmb : Option Vec)
    (br : List (List String) → List String → List ℝ) (st : Store)
    (query : String) (top_k : Nat) (document_id : Option String) (alpha : ℝ)
    (h : st.chunks_metadata = []) :
    search qEmb br st query top_k document_id alpha = [] := by
  simp [search, h]

/-- Witness for C5 at a concrete empty store and concrete arguments. -/
theorem search_empty_store_witness :
    emptyStore.chunks_metadata = [] ∧
    search none (fun _ _ => []) emptyStore "query" 5 none (7 / 10) = [] :=
  ⟨rfl, search_empty_store none (fun _ _ => []) emptyStore "query" 5 none (7 / 10) rfl⟩

/-! ### Claim C10: `add_chunks` with an empty chunk sequence -/

/-- C10. Calling `add_chunks` with an empty chunk sequence is a complete
no-op: for every provider `p` (none of whose batches are requested, since
the result does not depend on `p`), it returns successfully with the
in-memory state and the disk both unchanged. -/
theorem add_chunks_nil (p : Provider) (document_id : String) (st : Store) (dk : Disk) :
    add_chunks p document_id [] st dk = ((st, dk), true) := by
  simp [add_chunks]

/-! ### Claim C8: `add_chunks` failure atomicity -/

/-- C8. If the batched embedding of the chunk texts fails (some provider
batch raised), the whole `add_chunks` call fails and commits nothing: the
returned state is exactly the input in-memory state paired with the input
disk. -/
theorem add_chunks_atomic_failure (p : Provider) (document_id : String)
    (chunks : List ChunkInput) (st : Store) (dk : Disk)
    (h : embedAll p (chunks.map (fun c => c.text)) = none) :
    add_chunks p document_id chunks st dk = ((st, dk), false) := by
  unfold add_chunks
  cases chunks with
  | nil => simp [embedAll] at h
  | cons c cs =>
    simp only [List.map_cons] at h
    simp [h]

/-- Witness for C8: a provider whose every batch fails, applied to a
one-chunk call on a concrete store. -/
theorem add_chunks_atomic_failure_witness :
    embedAll (fun _ => none) ([(⟨"cats", 0, "f.txt", 4, 1⟩ : ChunkInput)].map
      (fun c => c.text)) = none ∧
    add_chunks (fun _ => none) "doc1" [⟨"cats", 0, "f.txt", 4, 1⟩] emptyStore emptyDisk =
      ((emptyStore, emptyDisk), false) := by
  refine ⟨by simp [embedAll], ?_⟩
  exact add_chunks_atomic_failure (fun _ => none) "doc1" _ emptyStore emptyDisk (by simp [embedAll])

end VectorStore

namespace VectorStore

/-! ### Properties of the batching loop -/

theorem embedAll_cons (p : Provider) (t : String) (rest : List String) :
    embedAll p (t :: rest) =
      match p ((t :: rest).take 20), embedAll p ((t :: rest).drop 20) with
      | some b, some bs => some (b ++ bs)
      | _, _ => none := by
  rw [embedAll.eq_def]

/-- A provider honouring the one-vector-per-text contract makes the
batching loop return one vector per text. -/
theorem embedAll_length (p : Provider) (hp : ProviderLen p) :
    ∀ (ts : List String) (out : List Vec), embedAll p ts = some out →
      out.length = ts.length := by
  intro ts
  induction ts using embedAll.induct (p := p) with
  | case1 => intro out h; simp [embedAll] at h; simp [← h]
  | case2 t rest b bs hr hb ih =>
    intro out h
    rw [embedAll_cons, hb, hr] at h
    simp only [Option.some.injEq] at h
    have h1 := hp _ _ hb
    have h2 := ih _ hr
    subst h
    simp only [List.length_append, List.length_take, List.length_drop,
      List.length_cons] at *
    omega
  | case3 t rest hfail ih =>
    intro out h
    rw [embedAll_cons] at h
    cases hb : p ((t :: rest).take 20) with
    | none =>
      rw [hb] at h
      cases hr : embedAll p ((t :: rest).drop 20) <;> rw [hr] at h <;> simp at h
    | some b =>
      cases hr : embedAll p ((t :: rest).drop 20) with
      | none => rw [hb, hr] at h; simp at h
      | some bs => exact absurd trivial (fun _ => hfail b bs hb hr)

/-! ### Enumeration and index-filtering lemmas used by the mutations -/

theorem enumFrom_map_snd_comp {α β : Type _} (f : α → β) :
    ∀ (n : Nat) (l : List α),
      (List.enumFrom n l).map (fun ia => f ia.2) = l.map f := by
  intro n l
  induction l generalizing n with
  | nil => rfl
  | cons a l ih => simp only [List.enumFrom_cons, List.map_cons, ih]

theorem enum_filterMap_if_length {α : Type _} (P : α → Prop) [DecidablePred P] :
    ∀ (l : List α) (n : Nat),
      ((List.enumFrom n l).filterMap
          (fun ia => if P ia.2 then none else some ia.1)).length
        = (l.filter (fun a => decide (¬ P a))).length := by
  intro l
  induction l with
  | nil => intro n; rfl
  | cons a l ih =>
    intro n
    by_cases hPa : P a <;>
      simp [List.filterMap_cons, List.filter_cons, hPa, ih]

theorem enum_filterMap_if_getElem {α β : Type _} (P : α → Prop) [DecidablePred P] :
    ∀ (l : List α) (ml : List β) (pre : List β), ml.length = l.length →
      (((List.enumFrom pre.length l).filterMap
          (fun ia => if P ia.2 then none else some ia.1)).filterMap
        (fun i => (pre ++ ml)[i]?)) =
      ((ml.zip l).filter (fun ba => decide (¬ P ba.2))).map Prod.fst := by
  intro l
  induction l with
  | nil =>
    intro ml pre hlen
    have : ml = [] := List.length_eq_zero.1 hlen
    subst this
    rfl
  | cons a l ih =>
    intro ml pre hlen
    cases ml with
    | nil => simp at hlen
    | cons b ml2 =>
      have hlen2 : ml2.length = l.length := by simpa using hlen
      have hpre : pre ++ b :: ml2 = (pre ++ [b]) ++ ml2 := by simp
      have hpre1 : (pre ++ [b]).length = pre.length + 1 := by simp
      by_cases hPa : P a
      · simp only [List.enumFrom_cons, List.filterMap_cons, if_pos hPa]
        rw [hpre, ← hpre1, ih ml2 (pre ++ [b]) hlen2]
        simp [List.filter_cons, hPa]
      · simp only [List.enumFrom_cons, List.filterMap_cons, if_neg hPa]
        have hget : (pre ++ b :: ml2)[pre.length]? = some b := by
          rw [List.getElem?_append_right (le_refl pre.length)]
          simp
        simp only [hget]
        rw [hpre, ← hpre1, ih ml2 (pre ++ [b]) hlen2]
        simp [List.filter_cons, hPa]

theorem zip_self_filter_map {α : Type _} (P : α → Prop) [DecidablePred P] :
    ∀ l : List α,
      ((l.zip l).filter (fun ba => decide (¬ P ba.2))).map Prod.fst
        = l.filter (fun a => decide (¬ P a)) := by
  intro l
  induction l with
  | nil => rfl
  | cons a l ih =>
    simp only [decide_not] at ih
    by_cases hPa : P a <;>
      simp [List.zip_cons_cons, List.filter_cons, hPa, decide_not, ih]

theorem zip_filter_length {α β : Type _} (P : α → Prop) [DecidablePred P] :
    ∀ (l : List α) (ml : List β), ml.length = l.length →
      (((ml.zip l).filter (fun ba => decide (¬ P ba.2))).map Prod.fst).length
        = (l.filter (fun a => decide (¬ P a))).length := by
  intro l
  induction l with
  | nil => intro ml h; have : ml = [] := List.length_eq_zero.1 h; subst this; rfl
  | cons a l ih =>
    intro ml h
    cases ml with
    | nil => simp at h
    | cons b ml2 =>
      have h2 : ml2.length = l.length := by simpa using h
      have ih2 := ih ml2 h2
      simp only [decide_not] at ih2
      by_cases hPa : P a <;>
        simp [List.zip_cons_cons, List.filter_cons, hPa, decide_not, ih2]

end VectorStore

namespace VectorStore

theorem enum_filterMap_getElem_self {α : Type _} (P : α → Prop) [DecidablePred P]
    (l : List α) :
    ((l.enum.filterMap (fun ia => if P ia.2 then none else some ia.1)).filterMap
        (fun i => l[i]?))
      = l.filter (fun a => decide (¬ P a)) := by
  have h := enum_filterMap_if_getElem P l l ([] : List α) rfl
  simp only [List.nil_append, List.length_nil] at h
  rw [List.enum, h, zip_self_filter_map]

theorem enum_filterMap_getElem_zip {α β : Type _} (P : α → Prop) [DecidablePred P]
    (l : List α) (ml : List β) (hml : ml.length = l.length) :
    ((l.enum.filterMap (fun ia => if P ia.2 then none else some ia.1)).filterMap
        (fun i => ml[i]?))
      = ((ml.zip l).filter (fun ba => decide (¬ P ba.2))).map Prod.fst := by
  have h := enum_filterMap_if_getElem P l ml ([] : List β) hml
  simp only [List.nil_append, List.length_nil] at h
  rw [List.enum, h]

theorem enum_filterMap_length_self {α : Type _} (P : α → Prop) [DecidablePred P]
    (l : List α) :
    ((l.enum.filterMap (fun ia => if P ia.2 then none else some ia.1)).length)
      = (l.filter (fun a => decide (¬ P a))).length := by
  rw [List.enum, enum_filterMap_if_length]

/-! ### Preservation of the alignment invariant by each engine call -/

theorem aligned_add_chunks (p : Provider) (hp : ProviderLen p) (d : String)
    (cs : List ChunkInput) (st : Store) (dk : Disk) (h : Aligned st) :
    Aligned (add_chunks p d cs st dk).1.1 := by
  unfold add_chunks
  by_cases hcs : cs.isEmpty
  · simp only [hcs, if_true]; exact h
  · simp only [hcs, Bool.false_eq_true, if_false]
    cases he : embedAll p (cs.map fun c => c.text) with
    | none => exact h
    | some embs =>
      have hlen : embs.length = cs.length := by
        have := embedAll_length p hp _ _ he
        simpa using this
      constructor
      · show rowCount (some _) = _
        cases hv : st.vectors with
        | none =>
          have h0 : st.chunks_metadata.length = 0 := by
            have h1 := h.1
            rw [hv] at h1
            simpa [rowCount] using h1.symm
          simp [rowCount, hlen, h0]
        | some m =>
          have hm : m.length = st.chunks_metadata.length := by
            have h1 := h.1
            rw [hv] at h1
            simpa [rowCount] using h1
          simp [rowCount, hlen, hm]
      · show st.tokenized_corpus ++ _ = _
        rw [h.2, List.map_append]
        congr 1
        rw [List.map_map, List.map_map]
        exact (enumFrom_map_snd_comp (fun c : ChunkInput => tokenize c.text) 0 cs).symm

theorem aligned_delete_document (d : String) (st : Store) (dk : Disk)
    (h : Aligned st) : Aligned (delete_document d st dk).1.1 := by
  unfold delete_document
  by_cases hl : (st.document_metadata.lookup d : Option DocMeta).isNone
  · simp only [hl, if_true]; exact h
  · simp only [hl, Bool.false_eq_true, if_false]
    by_cases hrem : (st.chunks_metadata.enum.filterMap
        (fun ic => if ic.2.document_id = d then none else some ic.1)).length
          = st.chunks_metadata.length
    · simp only [hrem, if_true]
      exact ⟨h.1, h.2⟩
    · simp only [hrem, if_false]
      by_cases hemp : (st.chunks_metadata.enum.filterMap
          (fun ic => if ic.2.document_id = d then none else some ic.1)).filterMap
            (fun i => st.chunks_metadata[i]?) |>.isEmpty
      · simp only [hemp, if_true]
        have hnil : ((st.chunks_metadata.enum.filterMap
            (fun ic => if ic.2.document_id = d then none else some ic.1)).filterMap
              (fun i => st.chunks_metadata[i]?)) = [] := by
          simpa [List.isEmpty_iff] using hemp
        constructor
        · show rowCount none = _
          rw [hnil]
          rfl
        · rw [hnil]
          rfl
      · simp only [hemp, Bool.false_eq_true, if_false]
        refine ⟨?_, rfl⟩
        show rowCount _ = _
        cases hv : st.vectors with
        | none =>
          exfalso
          have h1 := h.1
          rw [hv] at h1
          have h0 : st.chunks_metadata = [] :=
            List.length_eq_zero.1 (by simpa [rowCount] using h1.symm)
          apply hrem
          simp [h0]
        | some m =>
          have hm : m.length = st.chunks_metadata.length := by
            have h1 := h.1
            rw [hv] at h1
            simpa [rowCount] using h1
          show (((st.chunks_metadata.enum.filterMap
              (fun ic => if ic.2.document_id = d then none else some ic.1)).filterMap
                (fun i => m[i]?)).length) = _
          rw [enum_filterMap_getElem_zip (fun c : Chunk => c.document_id = d)
              st.chunks_metadata m hm,
            enum_filterMap_getElem_self (fun c : Chunk => c.document_id = d)
              st.chunks_metadata]
          exact zip_filter_length (fun c : Chunk => c.document_id = d)
            st.chunks_metadata m hm

theorem aligned_update_document_status (d stat : String) (n : Nat)
    (at2 : Option String) (f : Option String) (st : Store) (dk : Disk)
    (h : Aligned st) : Aligned (update_document_status d stat n at2 f st dk).1 := by
  unfold update_document_status
  cases (st.document_metadata.lookup d : Option DocMeta) with
  | none => exact ⟨h.1, h.2⟩
  | some old => exact ⟨h.1, h.2⟩

theorem aligned_applyOp (p : Provider) (hp : ProviderLen p) (s : Store × Disk)
    (op : Op) (h : Aligned s.1) : Aligned (applyOp p s op).1 := by
  cases op with
  | add d cs => exact aligned_add_chunks p hp d cs s.1 s.2 h
  | del d => exact aligned_delete_document d s.1 s.2 h
  | status d stat n at2 f => exact aligned_update_document_status d stat n at2 f s.1 s.2 h

theorem aligned_foldl (p : Provider) (hp : ProviderLen p) :
    ∀ (ops : List Op) (s : Store × Disk), Aligned s.1 →
      Aligned (ops.foldl (applyOp p) s).1 := by
  intro ops
  induction ops with
  | nil => intro s h; exact h
  | cons op ops ih =>
    intro s h
    exact ih (applyOp p s op) (aligned_applyOp p hp s op h)

/-! ### Claim C1: the index-alignment invariant -/

/-- C1. For every state reachable from a fresh engine over an empty
storage root by any sequence of engine calls (`add_chunks`,
`delete_document`, `update_document_status` — a superset of the claimed
add/delete sequences), provided the embedding provider returns one vector
per text on success: the number of chunk records equals the number of
dense-matrix rows (0 when uninitialized) and the number of sparse-corpus
entries, and the corpus entry at position `i` is the tokenization of the
chunk record at position `i`. -/
theorem alignment_invariant (p : Provider) (hp : ProviderLen p) (ops : List Op) :
    (runOps p ops).1.chunks_metadata.length = rowCount (runOps p ops).1.vectors ∧
    (runOps p ops).1.tokenized_corpus.length = (runOps p ops).1.chunks_metadata.length ∧
    (runOps p ops).1.tokenized_corpus
      = (runOps p ops).1.chunks_metadata.map (fun c => tokenize c.text) := by
  have h0 : Aligned (load_from_disk emptyDisk, emptyDisk).1 := by
    constructor
    · rfl
    · rfl
  have h : Aligned (runOps p ops).1 :=
    aligned_foldl p hp ops (load_from_disk emptyDisk, emptyDisk) h0
  refine ⟨h.1.symm, ?_, h.2⟩
  rw [h.2, List.length_map]

/-- Witness for C1: a concrete length-preserving provider and a concrete
two-call sequence. -/
theorem alignment_invariant_witness :
    ProviderLen (fun ts => some (ts.map (fun _ => [(1 : ℝ)]))) ∧
    ((runOps (fun ts => some (ts.map (fun _ => [(1 : ℝ)])))
        [Op.add "doc1" [⟨"cats", 0, "f.txt", 4, 1⟩], Op.del "doc1"]).1.chunks_metadata.length
      = rowCount (runOps (fun ts => some (ts.map (fun _ => [(1 : ℝ)])))
        [Op.add "doc1" [⟨"cats", 0, "f.txt", 4, 1⟩], Op.del "doc1"]).1.vectors) := by
  have hp : ProviderLen (fun ts => some (ts.map (fun _ => [(1 : ℝ)]))) := by
    intro ts out h
    simp only [Option.some.injEq] at h
    rw [← h, List.length_map]
  exact ⟨hp, (alignment_invariant (fun ts => some (ts.map (fun _ => [(1 : ℝ)]))) hp
    [Op.add "doc1" [⟨"cats", 0, "f.txt", 4, 1⟩], Op.del "doc1"]).1⟩

end VectorStore

namespace VectorStore

/-! ### Dictionary lemmas for the document-metadata mapping -/

theorem lookup_eq_none_of_not_mem_keys {β : Type _} (d : String)
    (l : List (String × β)) (h : d ∉ l.map Prod.fst) :
    (List.lookup d l : Option β) = none := by
  induction l with
  | nil => rfl
  | cons kv l ih =>
    simp only [List.map_cons, List.mem_cons] at h
    push_neg at h
    obtain ⟨k, v⟩ := kv
    have hne : (d == k) = false := beq_eq_false_iff_ne.2 h.1
    simp only [List.lookup, hne]
    exact ih h.2

theorem lookup_eraseP_self {β : Type _} (d : String) (l : List (String × β))
    (hnd : (l.map Prod.fst).Nodup) :
    (List.lookup d (l.eraseP (fun kv => kv.1 == d)) : Option β) = none := by
  induction l with
  | nil => rfl
  | cons kv l ih =>
    obtain ⟨k, v⟩ := kv
    simp only [List.map_cons, List.nodup_cons] at hnd
    by_cases hk : k = d
    · subst hk
      rw [List.eraseP_cons_of_pos (by simp)]
      exact lookup_eq_none_of_not_mem_keys k l hnd.1
    · rw [List.eraseP_cons_of_neg (by simpa using hk)]
      have hne : (d == k) = false := beq_eq_false_iff_ne.2 (fun hdk => hk hdk.symm)
      simp only [List.lookup, hne]
      exact ih hnd.2

/-! ### Claim C2: `delete_document` -/

/-- C2 counterexample. The claim says the call "returns whether anything
was deleted — false exactly when `d` was unknown". On the concrete store
whose `doc1` status record exists but owns no chunk records,
`delete_document "doc1"` returns `false` although `doc1` was known and its
status record is removed; moreover nothing is persisted. This traces the
early return at `vector_store.py:251-252`, which fires after the
`del self.document_metadata[document_id]` at line 246 and before
`_save_to_disk`. -/
theorem delete_document_cex :
    (List.lookup "doc1" stD.document_metadata : Option DocMeta).isSome = true ∧
    (delete_document "doc1" stD emptyDisk).2 = false ∧
    get_document_status "doc1" (delete_document "doc1" stD emptyDisk).1.1 = none ∧
    (delete_document "doc1" stD emptyDisk).1.2 = emptyDisk := by
  refine ⟨rfl, rfl, rfl, rfl⟩

/-- C2 amended. For a known document `d` (with dictionary-unique keys, as
for a Python dict): the call returns `true` iff `d` owned at least one
chunk record (so it returns `false` both for unknown `d` and for a known
`d` without chunks); `d`'s status record is always removed
(`get_document_status` then yields not-found) and no chunk record with
`document_id = d` remains; when chunks were removed, the chunk list is the
original list filtered to the other documents in order, the dense matrix
is filtered to the same surviving positions in order (reset to
uninitialized together with the sparse index when no chunks remain), the
corpus is rebuilt from the surviving chunks, and the updated state is
persisted; when nothing was removed the disk is left untouched. -/
theorem delete_document_spec (d : String) (st : Store) (dk : Disk)
    (hknown : (List.lookup d st.document_metadata : Option DocMeta).isSome = true)
    (hnd : (st.document_metadata.map Prod.fst).Nodup) :
    ((delete_document d st dk).2 = true ↔
      ∃ c ∈ st.chunks_metadata, c.document_id = d) ∧
    get_document_status d (delete_document d st dk).1.1 = none ∧
    (∀ c ∈ (delete_document d st dk).1.1.chunks_metadata, c.document_id ≠ d) ∧
    ((delete_document d st dk).2 = true →
      (delete_document d st dk).1.1.chunks_metadata
          = st.chunks_metadata.filter (fun c => decide (¬ c.document_id = d)) ∧
      (∀ m, st.vectors = some m → m.length = st.chunks_metadata.length →
        (delete_document d st dk).1.1.vectors =
          (if st.chunks_metadata.filter (fun c => decide (¬ c.document_id = d)) = []
            then none
            else some (((m.zip st.chunks_metadata).filter
              (fun vc => decide (¬ vc.2.document_id = d))).map Prod.fst))) ∧
      (delete_document d st dk).1.1.tokenized_corpus
          = (delete_document d st dk).1.1.chunks_metadata.map (fun c => tokenize c.text) ∧
      ((delete_document d st dk).1.1.chunks_metadata = [] →
        (delete_document d st dk).1.1.bm25 = false ∧
        (delete_document d st dk).1.1.vectors = none) ∧
      (delete_document d st dk).1.2 = save_to_disk (delete_document d st dk).1.1 dk) ∧
    ((delete_document d st dk).2 = false → (delete_document d st dk).1.2 = dk) := by
  have hkn : (List.lookup d st.document_metadata : Option DocMeta).isNone = false := by
    cases hcase : (List.lookup d st.document_metadata : Option DocMeta) with
    | none => rw [hcase] at hknown; simp at hknown
    | some v => rfl
  unfold delete_document
  rw [hkn]
  simp only [Bool.false_eq_true, if_false]
  by_cases hrem : (st.chunks_metadata.enum.filterMap
      (fun ic => if ic.2.document_id = d then none else some ic.1)).length
        = st.chunks_metadata.length
  · simp only [hrem, if_true]
    have hall : ∀ c ∈ st.chunks_metadata, ¬ c.document_id = d := by
      have h1 := enum_filterMap_length_self (fun c : Chunk => c.document_id = d)
        st.chunks_metadata
      rw [h1] at hrem
      have h2 := List.filter_length_eq_length.1 hrem
      intro c hc
      have := h2 c hc
      simpa using this
    refine ⟨?_, ?_, ?_, ?_, ?_⟩
    · simp only [Bool.false_eq_true, false_iff]
      rintro ⟨c, hc, hcd⟩
      exact hall c hc hcd
    · exact lookup_eraseP_self d st.document_metadata hnd
    · exact hall
    · intro hfalse; simp at hfalse
    · intro _; trivial
  · simp only [hrem, if_false]
    have hchunks : ((st.chunks_metadata.enum.filterMap
        (fun ic => if ic.2.document_id = d then none else some ic.1)).filterMap
          (fun i => st.chunks_metadata[i]?))
        = st.chunks_metadata.filter (fun c => decide (¬ c.document_id = d)) :=
      enum_filterMap_getElem_self (fun c : Chunk => c.document_id = d) st.chunks_metadata
    have hex : ∃ c ∈ st.chunks_metadata, c.document_id = d := by
      by_contra hno
      push_neg at hno
      apply hrem
      rw [enum_filterMap_length_self (fun c : Chunk => c.document_id = d)
        st.chunks_metadata]
      apply List.filter_length_eq_length.2
      intro c hc
      simpa using hno c hc
    by_cases hemp : ((st.chunks_metadata.enum.filterMap
        (fun ic => if ic.2.document_id = d then none else some ic.1)).filterMap
          (fun i => st.chunks_metadata[i]?)).isEmpty
    · simp only [hemp, if_true]
      have hnil : st.chunks_metadata.filter (fun c => decide (¬ c.document_id = d)) = [] := by
        rw [← hchunks]
        simpa [List.isEmpty_iff] using hemp
      have hnil2 : ((st.chunks_metadata.enum.filterMap
          (fun ic => if ic.2.document_id = d then none else some ic.1)).filterMap
            (fun i => st.chunks_metadata[i]?)) = [] := by
        rw [hchunks]; exact hnil
      refine ⟨by simpa using hex, lookup_eraseP_self d st.document_metadata hnd, ?_, ?_, ?_⟩
      · intro c hc
        rw [hnil2] at hc
        simp at hc
      · intro _
        refine ⟨by rw [hnil2, hnil], ?_, ?_, ?_, by trivial⟩
        · intro m hm hlen
          rw [if_pos hnil]
        · rw [hnil2]; rfl
        · intro _; constructor <;> trivial
        
      · intro hfalse; simp at hfalse
    · simp only [hemp, Bool.false_eq_true, if_false]
      have hne : st.chunks_metadata.filter (fun c => decide (¬ c.document_id = d)) ≠ [] := by
        rw [← hchunks]
        intro hcon
        rw [List.isEmpty_iff] at hemp
        exact hemp hcon
      refine ⟨by simpa using hex, lookup_eraseP_self d st.document_metadata hnd, ?_, ?_, ?_⟩
      · intro c hc
        rw [hchunks] at hc
        have := (List.mem_filter.1 hc).2
        simpa using this
      · intro _
        refine ⟨hchunks, ?_, by trivial, ?_, by trivial⟩
        · intro m hm hlen
          rw [if_neg hne]
          simp only [hm]
          rw [enum_filterMap_getElem_zip (fun c : Chunk => c.document_id = d)
            st.chunks_metadata m hlen]
        · intro hcon
          rw [hchunks] at hcon
          exact absurd hcon hne
      · intro hfalse; simp at hfalse

/-- Witness for C2's amended theorem: deleting the single-chunk document
`doc1` from a concrete store. -/
theorem delete_document_spec_witness :
    ((List.lookup "doc1" stE.document_metadata : Option DocMeta).isSome = true ∧
      (stE.document_metadata.map Prod.fst).Nodup) ∧
    ((delete_document "doc1" stE emptyDisk).2 = true ↔
      ∃ c ∈ stE.chunks_metadata, c.document_id = "doc1") := by
  have h1 : (List.lookup "doc1" stE.document_metadata : Option DocMeta).isSome = true := rfl
  have h2 : (stE.document_metadata.map Prod.fst).Nodup := by
    simp [stE]
  exact ⟨⟨h1, h2⟩, (delete_document_spec "doc1" stE emptyDisk h1 h2).1⟩

end VectorStore

namespace VectorStore

/-! ### Claim C9: save/reload round trip -/

/-- C9 counterexample. Saving a store whose dense matrix is uninitialized
does not remove a previously written matrix file (`_save_to_disk` only
writes `vectors.npy` when `self.vectors is not None`), so a fresh engine
constructed over the same storage root loads a dense matrix where the
saved engine had none: the reloaded dense matrix is not equal to the saved
one. Such a state arises in practice right after deleting the last
document, which resets `self.vectors` to `None` and saves. -/
theorem reload_round_trip_cex :
    (load_from_disk (save_to_disk (⟨none, [], [], [], false⟩ : Store)
        (⟨some [[1]], none, none⟩ : Disk))).vectors
      ≠ (⟨none, [], [], [], false⟩ : Store).vectors := by
  simp [load_from_disk, save_to_disk]

/-- C9 amended. For every well-formed store state and any disk: saving and
constructing a fresh engine over the resulting storage root restores equal
chunk records and document records (hence equal `list_documents`); when
the dense matrix is initialized the whole reloaded state equals the saved
state (in particular the dense matrix is restored); and in every case —
including the uninitialized matrix, where a stale matrix file may be
reloaded — `search` answers identically on the reloaded and original
state for the same query-embedding answer and sparse scorer. -/
theorem reload_round_trip (st : Store) (dk : Disk) (h : WF st) :
    (load_from_disk (save_to_disk st dk)).chunks_metadata = st.chunks_metadata ∧
    (load_from_disk (save_to_disk st dk)).document_metadata = st.document_metadata ∧
    list_documents (load_from_disk (save_to_disk st dk)) = list_documents st ∧
    (st.vectors ≠ none → load_from_disk (save_to_disk st dk) = st) ∧
    (∀ (qe : Option Vec) (br : List (List String) → List String → List ℝ)
        (q : String) (k : Nat) (d : Option String) (a : ℝ),
      search qe br (load_from_disk (save_to_disk st dk)) q k d a
        = search qe br st q k d a) := by
  obtain ⟨v, cm, dm, tc, b⟩ := st
  obtain ⟨hcorpus, hbm, hvec⟩ := h
  simp only at hcorpus hbm hvec
  have hload : ∀ m, v = some m →
      load_from_disk (save_to_disk (⟨v, cm, dm, tc, b⟩ : Store) dk)
        = (⟨v, cm, dm, tc, b⟩ : Store) := by
    intro m hm
    subst hm
    simp [load_from_disk, save_to_disk, hcorpus, hbm]
  refine ⟨rfl, rfl, rfl, ?_, ?_⟩
  · intro hv
    cases hv2 : v with
    | none => exact absurd hv2 hv
    | some m => subst hv2; exact hload m rfl
  · intro qe br q k d a
    cases hv2 : v with
    | none =>
      have hcm : cm = [] := hvec hv2
      subst hcm
      subst hv2
      rw [search, search]
      simp [load_from_disk, save_to_disk]
    | some m => subst hv2; rw [hload m rfl]

/-- Witness for C9's amended theorem at the concrete two-document store. -/
theorem reload_round_trip_witness :
    WF stA ∧
    (load_from_disk (save_to_disk stA emptyDisk)).chunks_metadata
      = stA.chunks_metadata := by
  have hwf : WF stA := ⟨rfl, rfl, by intro h; simp [stA] at h⟩
  exact ⟨hwf, (reload_round_trip stA emptyDisk hwf).1⟩

end VectorStore

namespace VectorStore

/-! ### Structure of `search` results -/

theorem mergeSort_pair {α : Type _} (le : α → α → Bool) (a b : α) :
    List.mergeSort [a, b] le = if le a b then [a, b] else [b, a] := by
  rw [List.mergeSort]
  simp [List.mergeSort, List.merge]

theorem search_eq (qEmb : Option Vec)
    (br : List (List String) → List String → List ℝ) (st : Store)
    (query : String) (top_k : Nat) (document_id : Option String) (alpha : ℝ)
    (hv : st.vectors.isNone = false) (hc : st.chunks_metadata.isEmpty = false) :
    search qEmb br st query top_k document_id alpha
      = (List.mergeSort (searchCandidates qEmb br st query document_id alpha)
          scoreLe).take top_k := by
  rw [search, searchCandidates]
  simp [hv, hc]

theorem mem_search_mem_candidates (qEmb : Option Vec)
    (br : List (List String) → List String → List ℝ) (st : Store)
    (query : String) (top_k : Nat) (document_id : Option String) (alpha : ℝ)
    (r : SearchResult) (hr : r ∈ search qEmb br st query top_k document_id alpha) :
    r ∈ searchCandidates qEmb br st query document_id alpha := by
  cases hv : st.vectors.isNone with
  | true => rw [search] at hr; simp [hv] at hr
  | false =>
    cases hc : st.chunks_metadata.isEmpty with
    | true => rw [search] at hr; simp [hc] at hr
    | false =>
      rw [search_eq qEmb br st query top_k document_id alpha hv hc] at hr
      have h2 := List.mem_of_mem_take hr
      exact List.mem_mergeSort.1 h2

theorem mem_candidates_iff {vr sr : Option (List ℝ)} {chunks : List Chunk}
    {d : Option String} {a : ℝ} {r : SearchResult} :
    r ∈ candidates vr sr chunks d a ↔
      ∃ idx, idx < max (optLen vr) (optLen sr) ∧
        ∃ c, chunks[idx]? = some c ∧ keepChunk d c = true ∧
          r = ⟨c, a * pathScore vr idx + (1 - a) * pathScore sr idx,
                pathScore vr idx, pathScore sr idx⟩ := by
  rw [candidates, List.mem_filterMap]
  constructor
  · rintro ⟨idx, hmem, hsel⟩
    rw [List.mem_range] at hmem
    refine ⟨idx, hmem, ?_⟩
    cases hcc : chunks[idx]? with
    | none => rw [hcc] at hsel; simp at hsel
    | some c =>
      rw [hcc] at hsel
      by_cases hk : keepChunk d c = true
      · refine ⟨c, rfl, hk, ?_⟩
        simp only [hk, if_true] at hsel
        simp only [Option.some.injEq] at hsel
        exact hsel.symm
      · simp [hk] at hsel
  · rintro ⟨idx, hidx, c, hcc, hk, hreq⟩
    refine ⟨idx, List.mem_range.2 hidx, ?_⟩
    rw [hcc]
    simp [hk, ← hreq]

/-! ### Claim C3: hybrid fusion formula -/

/-- C3. Every result returned by `search` is annotated with its fused
score, dense component and sparse component, and the fused score equals
`alpha` times the dense component plus `1 - alpha` times the sparse
component; a result whose dense path is absent (query embedding failed)
carries dense component 0, and one whose sparse path is absent (no sparse
index) carries sparse component 0 — as does any index missing from one
path's score map, since the components are read with default 0. -/
theorem search_fusion (qEmb : Option Vec)
    (br : List (List String) → List String → List ℝ) (st : Store)
    (query : String) (top_k : Nat) (document_id : Option String) (alpha : ℝ)
    (r : SearchResult) (hr : r ∈ search qEmb br st query top_k document_id alpha) :
    r.score = alpha * r.vector_score + (1 - alpha) * r.bm25_score ∧
    (qEmb = none → r.vector_score = 0) ∧
    (st.bm25 = false → r.bm25_score = 0) := by
  have hc := mem_search_mem_candidates qEmb br st query top_k document_id alpha r hr
  rw [searchCandidates] at hc
  obtain ⟨idx, hidx, c, hcc, hk, hreq⟩ := mem_candidates_iff.1 hc
  subst hreq
  refine ⟨rfl, ?_, ?_⟩
  · intro hqe
    subst hqe
    rfl
  · intro hbm
    rw [hbm]
    rfl

end VectorStore

namespace VectorStore

/-! ### Score-path lemmas -/

theorem pathScore_eq_zero_or_mem (o : Option (List ℝ)) (idx : Nat) :
    pathScore o idx = 0 ∨ ∃ l, o = some l ∧ pathScore o idx ∈ l := by
  cases o with
  | none => left; rfl
  | some l =>
    cases hg : l[idx]? with
    | none => left; simp [pathScore, hg]
    | some x =>
      right
      refine ⟨l, rfl, ?_⟩
      have : pathScore (some l) idx = x := by simp [pathScore, hg]
      rw [this]
      exact List.getElem?_mem hg

theorem foldl_max_le_init (xs : List ℝ) : ∀ a : ℝ, a ≤ List.foldl max a xs := by
  induction xs with
  | nil => intro a; simp
  | cons x xs ih =>
    intro a
    rw [List.foldl_cons]
    exact le_trans (le_max_left a x) (ih (max a x))

theorem foldl_max_mem (xs : List ℝ) : ∀ (a s : ℝ), s ∈ xs → s ≤ List.foldl max a xs := by
  induction xs with
  | nil => intro a s h; simp at h
  | cons x xs ih =>
    intro a s h
    rw [List.foldl_cons]
    rcases List.mem_cons.1 h with h1 | h1
    · subst h1
      exact le_trans (le_max_right a s) (foldl_max_le_init xs (max a s))
    · exact ih (max a x) s h1

theorem le_listMax (l : List ℝ) (s : ℝ) (h : s ∈ l) : s ≤ listMax l := by
  cases l with
  | nil => simp at h
  | cons x xs =>
    rw [listMax]
    rcases List.mem_cons.1 h with h1 | h1
    · subst h1; exact foldl_max_le_init xs s
    · exact foldl_max_mem xs x s h1

/-- Normalized sparse scores are in `[0, 1]` provided the raw scores of
the external scorer are nonnegative. -/
theorem bm25Results_bounds (raw : List ℝ) (flag : Bool) (idx : Nat)
    (hnn : ∀ s ∈ raw, 0 ≤ s) :
    0 ≤ pathScore (bm25Results raw flag) idx ∧
      pathScore (bm25Results raw flag) idx ≤ 1 := by
  rcases pathScore_eq_zero_or_mem (bm25Results raw flag) idx with h0 | ⟨l, hl, hmem⟩
  · rw [h0]; norm_num
  · cases flag with
    | false => simp [bm25Results] at hl
    | true =>
      rw [bm25Results] at hl
      simp only [if_true, Option.some.injEq] at hl
      subst hl
      obtain ⟨s, hs, hsx⟩ := List.mem_map.1 hmem
      rw [← hsx]
      have hsnn : 0 ≤ s := hnn s hs
      have hsm : s ≤ listMax raw := le_listMax raw s hs
      by_cases hm : listMax raw = 0
      · have hs0 : s = 0 := le_antisymm (hm ▸ hsm) hsnn
        rw [if_pos hm, hs0]
        norm_num
      · have hmp : 0 < listMax raw := lt_of_le_of_ne (le_trans hsnn hsm) (Ne.symm hm)
        rw [if_neg hm]
        constructor
        · exact div_nonneg hsnn hmp.le
        · rw [div_le_one hmp]
          exact hsm

/-- Bound for one cosine entry of the dense path, with the row-norm guard
of the source. -/
theorem denseScore_bounds (v q2 : Vec) (h1 : dot q2 q2 ≤ 1) :
    -1 ≤ denseScore q2 v ∧ denseScore q2 v ≤ 1 := by
  rw [denseScore]
  by_cases hz : norm2 v = 0
  · have hq : dot v v = 0 := (norm2_eq_zero_iff v).1 hz
    have hvq : dot v q2 = 0 := by
      have hcs := dot_sq_le_dot_mul_dot v q2
      rw [hq, zero_mul] at hcs
      have h0 : dot v q2 ^ 2 = 0 := le_antisymm hcs (sq_nonneg _)
      exact pow_eq_zero_iff two_ne_zero |>.1 h0
    rw [if_pos hz, hvq]
    norm_num
  · have hpos : 0 < norm2 v := lt_of_le_of_ne (norm2_nonneg v) (Ne.symm hz)
    have hcs := dot_sq_le_dot_mul_dot v q2
    have hvv : dot v v = norm2 v ^ 2 := (sq_norm2 v).symm
    have h2 : dot v q2 ^ 2 ≤ norm2 v ^ 2 := by
      have hvnn := dot_self_nonneg v
      calc dot v q2 ^ 2 ≤ dot v v * dot q2 q2 := hcs
        _ ≤ dot v v * 1 := by nlinarith
        _ = norm2 v ^ 2 := by rw [mul_one, hvv]
    rw [if_neg hz]
    constructor
    · rw [le_div_iff₀ hpos]
      nlinarith
    · rw [div_le_one hpos]
      nlinarith

/-- The normalized (or zero-norm) query vector has self dot product at
most 1. -/
theorem normQuery_bound (q : Vec) :
    dot (normQuery q) (normQuery q) ≤ 1 := by
  rw [normQuery]
  by_cases hnq : norm2 q > 0
  · rw [if_pos hnq, dot_map_div_self]
    have hqq : 0 < dot q q := by
      have := Real.sqrt_pos.1 (by rw [← norm2]; exact hnq)
      exact this
    have : norm2 q * norm2 q = dot q q := by
      have := sq_norm2 q
      nlinarith [this]
    rw [this, div_self (ne_of_gt hqq)]
  · rw [if_neg hnq]
    have hq0 : norm2 q = 0 :=
      le_antisymm (le_of_not_lt hnq) (norm2_nonneg q)
    have := (norm2_eq_zero_iff q).1 hq0
    rw [this]
    norm_num

/-- All entries read from the dense path lie in `[-1, 1]`. -/
theorem vectorResults_bounds (qe : Option Vec) (m : List Vec) (idx : Nat) :
    -1 ≤ pathScore (vectorResults qe m) idx ∧
      pathScore (vectorResults qe m) idx ≤ 1 := by
  rcases pathScore_eq_zero_or_mem (vectorResults qe m) idx with h0 | ⟨l, hl, hmem⟩
  · rw [h0]; norm_num
  · cases qe with
    | none => simp [vectorResults] at hl
    | some q =>
      rw [vectorResults] at hl
      by_cases hsh : (m.headD []).length = (normQuery q).length
      · rw [if_pos hsh] at hl
        simp only [Option.some.injEq] at hl
        subst hl
        obtain ⟨v, hv, hvx⟩ := List.mem_map.1 hmem
        rw [← hvx]
        exact denseScore_bounds v _ (normQuery_bound q)
      · rw [if_neg hsh] at hl
        simp at hl

/-! ### Claim C6: the document filter -/

/-- C6 amended. For every nonempty document id `d`, a `search` call with
the filter set to `d` returns only results whose chunk record carries
`document_id = d` (the pre-ranking discard of other chunks); for the
empty-string id the filter is ignored. -/
theorem search_filter (qEmb : Option Vec)
    (br : List (List String) → List String → List ℝ) (st : Store)
    (query : String) (top_k : Nat) (d : String) (alpha : ℝ) (hd : d ≠ "")
    (r : SearchResult) (hr : r ∈ search qEmb br st query top_k (some d) alpha) :
    r.chunk.document_id = d := by
  have hc := mem_search_mem_candidates qEmb br st query top_k (some d) alpha r hr
  rw [searchCandidates] at hc
  obtain ⟨idx, hidx, c, hcc, hk, hreq⟩ := mem_candidates_iff.1 hc
  subst hreq
  simp only [keepChunk, Bool.or_eq_true, decide_eq_true_eq] at hk
  rcases hk with hk | hk
  · exact absurd hk hd
  · exact hk

end VectorStore

namespace VectorStore

/-! ### Claim C7: ranking, truncation and stability -/

theorem scoreLe_trans (a b c : SearchResult) (h1 : scoreLe a b) (h2 : scoreLe b c) :
    scoreLe a c := by
  simp only [scoreLe, decide_eq_true_eq] at *
  exact le_trans h2 h1

theorem scoreLe_total (a b : SearchResult) : scoreLe a b || scoreLe b a := by
  simp only [scoreLe, Bool.or_eq_true, decide_eq_true_eq]
  exact le_total b.score a.score

theorem pair_sublist_take {α : Type _} {a b : α} :
    ∀ (S : List α) (k : Nat), S.Nodup → [a, b].Sublist S → b ∈ S.take k →
      [a, b].Sublist (S.take k) := by
  intro S
  induction S with
  | nil => intro k _ hs hb; simp at hs
  | cons x S ih =>
    intro k hnd hs hb
    cases k with
    | zero => simp at hb
    | succ k2 =>
      rw [List.take_succ_cons] at hb ⊢
      rw [List.nodup_cons] at hnd
      cases hs with
      | cons _ hs2 =>
        have hbS : b ∈ S := hs2.subset (by simp)
        have hbx : b ≠ x := fun he => hnd.1 (he ▸ hbS)
        have hb2 : b ∈ S.take k2 := by
          rcases List.mem_cons.1 hb with h1 | h1
          · exact absurd h1 hbx
          · exact h1
        exact (ih k2 hnd.2 hs2 hb2).cons x
      | cons₂ _ hs2 =>
        have hbS : b ∈ S := List.singleton_sublist.1 hs2
        have hbx : b ≠ a := fun he => hnd.1 (he ▸ hbS)
        have hb2 : b ∈ S.take k2 := by
          rcases List.mem_cons.1 hb with h1 | h1
          · exact absurd h1 hbx
          · exact h1
        exact List.Sublist.cons₂ a (List.singleton_sublist.2 hb2)

/-- C7. `search` ranks by fused score descending with a stable sort and
truncates to `top_k`: the returned list is sorted by score descending, has
length `min top_k (number of candidates)`, consists of candidates, misses
no candidate scoring strictly higher than a returned result, and — for
candidate pools without duplicate records — preserves the candidate order
(ascending chunk index) between tied results. -/
theorem search_ranking (qEmb : Option Vec)
    (br : List (List String) → List String → List ℝ) (st : Store)
    (query : String) (top_k : Nat) (document_id : Option String) (alpha : ℝ)
    (hv : st.vectors.isNone = false) (hc : st.chunks_metadata.isEmpty = false)
    (hnd : (searchCandidates qEmb br st query document_id alpha).Nodup) :
    (search qEmb br st query top_k document_id alpha).Pairwise
        (fun r1 r2 => r2.score ≤ r1.score) ∧
    (search qEmb br st query top_k document_id alpha).length
        = min top_k (searchCandidates qEmb br st query document_id alpha).length ∧
    (∀ r ∈ search qEmb br st query top_k document_id alpha,
      r ∈ searchCandidates qEmb br st query document_id alpha) ∧
    (∀ c ∈ searchCandidates qEmb br st query document_id alpha,
      ∀ r ∈ search qEmb br st query top_k document_id alpha,
        r.score < c.score → c ∈ search qEmb br st query top_k document_id alpha) ∧
    (∀ r1 r2, [r1, r2].Sublist (searchCandidates qEmb br st query document_id alpha) →
      r1.score = r2.score → r2 ∈ search qEmb br st query top_k document_id alpha →
      [r1, r2].Sublist (search qEmb br st query top_k document_id alpha)) := by
  have heq := search_eq qEmb br st query top_k document_id alpha hv hc
  have hsorted := List.sorted_mergeSort scoreLe_trans scoreLe_total
    (searchCandidates qEmb br st query document_id alpha)
  have hperm := List.mergeSort_perm
    (searchCandidates qEmb br st query document_id alpha) scoreLe
  refine ⟨?_, ?_, ?_, ?_, ?_⟩
  · rw [heq]
    have h1 : (List.mergeSort (searchCandidates qEmb br st query document_id alpha)
        scoreLe).Pairwise (fun r1 r2 => r2.score ≤ r1.score) := by
      refine hsorted.imp ?_
      intro r1 r2 h
      simpa [scoreLe] using h
    exact h1.sublist (List.take_sublist _ _)
  · rw [heq, List.length_take, List.length_mergeSort]
  · intro r hr
    exact mem_search_mem_candidates qEmb br st query top_k document_id alpha r hr
  · intro c hcand r hr hlt
    rw [heq] at hr ⊢
    by_contra hnotin
    have hcS : c ∈ List.mergeSort (searchCandidates qEmb br st query document_id alpha)
        scoreLe := List.mem_mergeSort.2 hcand
    rw [← List.take_append_drop top_k (List.mergeSort
      (searchCandidates qEmb br st query document_id alpha) scoreLe)] at hcS
    rcases List.mem_append.1 hcS with hin | hin
    · exact hnotin hin
    · have hp := List.sorted_mergeSort scoreLe_trans scoreLe_total
        (searchCandidates qEmb br st query document_id alpha)
      rw [← List.take_append_drop top_k (List.mergeSort
        (searchCandidates qEmb br st query document_id alpha) scoreLe)] at hp
      have hcross := (List.pairwise_append.1 hp).2.2 r hr c hin
      simp only [scoreLe, decide_eq_true_eq] at hcross
      exact absurd hlt (not_lt.2 hcross)
  · intro r1 r2 hsub htie hr2
    rw [heq] at hr2 ⊢
    have hS : [r1, r2].Sublist (List.mergeSort
        (searchCandidates qEmb br st query document_id alpha) scoreLe) := by
      apply List.pair_sublist_mergeSort scoreLe_trans scoreLe_total
      · simp [scoreLe, htie]
      · exact hsub
    have hndS : (List.mergeSort (searchCandidates qEmb br st query document_id alpha)
        scoreLe).Nodup := hperm.nodup_iff.2 hnd
    exact pair_sublist_take _ top_k hndS hS hr2

end VectorStore

namespace VectorStore

/-! ### Claim C4: score bounds -/

/-- C4 amended. For every returned result, with `alpha` in `[0, 1]` (the
input contract) and a sparse scorer whose raw scores are nonnegative (true
of standard BM25 with nonnegative IDF): the dense component lies in
`[-1, 1]` (cosine range, unconditionally), the sparse component lies in
`[0, 1]` after the min-max normalization, and the fused score lies in
`[-alpha, 1]` — not `[0, ∞)` as claimed, since a negative cosine makes the
fused score negative. -/
theorem search_score_bounds (qEmb : Option Vec)
    (br : List (List String) → List String → List ℝ) (st : Store)
    (query : String) (top_k : Nat) (document_id : Option String) (alpha : ℝ)
    (r : SearchResult) (hr : r ∈ search qEmb br st query top_k document_id alpha)
    (ha0 : 0 ≤ alpha) (ha1 : alpha ≤ 1)
    (hnn : ∀ s ∈ br st.tokenized_corpus (tokenize query), 0 ≤ s) :
    (-1 ≤ r.vector_score ∧ r.vector_score ≤ 1) ∧
    (0 ≤ r.bm25_score ∧ r.bm25_score ≤ 1) ∧
    (-alpha ≤ r.score ∧ r.score ≤ 1) := by
  have hcm := mem_search_mem_candidates qEmb br st query top_k document_id alpha r hr
  rw [searchCandidates] at hcm
  obtain ⟨idx, hidx, c, hcc, hk, hreq⟩ := mem_candidates_iff.1 hcm
  subst hreq
  have hvb := vectorResults_bounds qEmb (st.vectors.getD []) idx
  have hbb := bm25Results_bounds (br st.tokenized_corpus (tokenize query))
    st.bm25 idx hnn
  refine ⟨hvb, hbb, ?_, ?_⟩
  · show -alpha ≤ alpha * _ + (1 - alpha) * _
    nlinarith [hvb.1, hvb.2, hbb.1, hbb.2]
  · show alpha * _ + (1 - alpha) * _ ≤ 1
    nlinarith [hvb.1, hvb.2, hbb.1, hbb.2]

/-! ### Concrete evaluations of `search` -/

theorem bm25A_eval : bm25Results [(1 : ℝ), 2] true = some [1 / 2, 1] := by
  have hmax : listMax [(1 : ℝ), 2] = 2 := by
    show List.foldl max 1 [2] = 2
    rw [List.foldl_cons, List.foldl_nil]
    exact max_eq_right (by norm_num)
  simp only [bm25Results, hmax, if_true]
  norm_num

theorem searchCandidatesA_eval :
    searchCandidates none (fun _ _ => [(1 : ℝ), 2]) stA "mammal" none (7 / 10)
      = [⟨cA, 7 / 10 * 0 + (1 - 7 / 10) * (1 / 2), 0, 1 / 2⟩,
         ⟨cB, 7 / 10 * 0 + (1 - 7 / 10) * 1, 0, 1⟩] := by
  rw [searchCandidates]
  rw [show stA.bm25 = true from rfl]
  rw [bm25A_eval]
  rfl

theorem searchA_eval :
    search none (fun _ _ => [(1 : ℝ), 2]) stA "mammal" 5 none (7 / 10)
      = [⟨cB, 3 / 10, 0, 1⟩, ⟨cA, 3 / 20, 0, 1 / 2⟩] := by
  rw [search_eq none (fun _ _ => [(1 : ℝ), 2]) stA "mammal" 5 none (7 / 10) rfl rfl,
    searchCandidatesA_eval, mergeSort_pair]
  have hle : scoreLe ⟨cA, 7 / 10 * 0 + (1 - 7 / 10) * (1 / 2), 0, 1 / 2⟩
      ⟨cB, 7 / 10 * 0 + (1 - 7 / 10) * 1, 0, 1⟩ = false := by
    simp only [scoreLe, decide_eq_false_iff_not]
    norm_num
  rw [hle]
  simp only [Bool.false_eq_true, if_false]
  norm_num [SearchResult.mk.injEq]

end VectorStore

namespace VectorStore

theorem searchCandidatesB_eval :
    searchCandidates none (fun _ _ => [(1 : ℝ), 2]) stA "mammal" (some "doc2") (7 / 10)
      = [⟨cB, 7 / 10 * 0 + (1 - 7 / 10) * 1, 0, 1⟩] := by
  rw [searchCandidates]
  rw [show stA.bm25 = true from rfl]
  rw [bm25A_eval]
  rfl

theorem searchB_eval :
    search none (fun _ _ => [(1 : ℝ), 2]) stA "mammal" 5 (some "doc2") (7 / 10)
      = [⟨cB, 3 / 10, 0, 1⟩] := by
  rw [search_eq none (fun _ _ => [(1 : ℝ), 2]) stA "mammal" 5 (some "doc2") (7 / 10)
      rfl rfl,
    searchCandidatesB_eval, List.mergeSort_singleton]
  norm_num [SearchResult.mk.injEq]

theorem searchCandidatesC_eval :
    searchCandidates none (fun _ _ => [(1 : ℝ), 2]) stA "mammal" (some "") (7 / 10)
      = [⟨cA, 7 / 10 * 0 + (1 - 7 / 10) * (1 / 2), 0, 1 / 2⟩,
         ⟨cB, 7 / 10 * 0 + (1 - 7 / 10) * 1, 0, 1⟩] := by
  rw [searchCandidates]
  rw [show stA.bm25 = true from rfl]
  rw [bm25A_eval]
  rfl

theorem searchC_eval :
    search none (fun _ _ => [(1 : ℝ), 2]) stA "mammal" 5 (some "") (7 / 10)
      = [⟨cB, 3 / 10, 0, 1⟩, ⟨cA, 3 / 20, 0, 1 / 2⟩] := by
  rw [search_eq none (fun _ _ => [(1 : ℝ), 2]) stA "mammal" 5 (some "") (7 / 10)
      rfl rfl,
    searchCandidatesC_eval, mergeSort_pair]
  have hle : scoreLe ⟨cA, 7 / 10 * 0 + (1 - 7 / 10) * (1 / 2), 0, 1 / 2⟩
      ⟨cB, 7 / 10 * 0 + (1 - 7 / 10) * 1, 0, 1⟩ = false := by
    simp only [scoreLe, decide_eq_false_iff_not]
    norm_num
  rw [hle]
  simp only [Bool.false_eq_true, if_false]
  norm_num [SearchResult.mk.injEq]

theorem bm25D_eval : bm25Results [(-2 : ℝ), -1] true = some [2, 1] := by
  have hmax : listMax [(-2 : ℝ), -1] = -1 := by
    show List.foldl max (-2) [-1] = -1
    rw [List.foldl_cons, List.foldl_nil]
    exact max_eq_right (by norm_num)
  simp only [bm25Results, hmax, if_true]
  norm_num

theorem vectorResultsD_eval :
    vectorResults (some [(-1 : ℝ)]) (stA.vectors.getD []) = some [-1, -1] := by
  have hd : dot [(-1 : ℝ)] [(-1 : ℝ)] = 1 := by norm_num [dot]
  have hn : norm2 [(-1 : ℝ)] = 1 := by rw [norm2, hd, Real.sqrt_one]
  have hnq : normQuery [(-1 : ℝ)] = [-1] := by
    rw [normQuery, hn]
    norm_num
  have hd1 : dot [(1 : ℝ)] [(1 : ℝ)] = 1 := by norm_num [dot]
  have hn1 : norm2 [(1 : ℝ)] = 1 := by rw [norm2, hd1, Real.sqrt_one]
  have hds : denseScore [(-1 : ℝ)] [(1 : ℝ)] = -1 := by
    rw [denseScore, hn1]
    have hdv : dot [(1 : ℝ)] [(-1 : ℝ)] = -1 := by norm_num [dot]
    rw [hdv]
    norm_num
  show vectorResults (some [(-1 : ℝ)]) [[1], [1]] = some [-1, -1]
  simp only [vectorResults, hnq]
  norm_num [hds]

theorem searchCandidatesD_eval :
    searchCandidates (some [(-1 : ℝ)]) (fun _ _ => [(-2 : ℝ), -1]) stA "query"
        none (7 / 10)
      = [⟨cA, 7 / 10 * -1 + (1 - 7 / 10) * 2, -1, 2⟩,
         ⟨cB, 7 / 10 * -1 + (1 - 7 / 10) * 1, -1, 1⟩] := by
  rw [searchCandidates]
  rw [vectorResultsD_eval]
  rw [show stA.bm25 = true from rfl]
  rw [bm25D_eval]
  rfl

theorem searchD_eval :
    search (some [(-1 : ℝ)]) (fun _ _ => [(-2 : ℝ), -1]) stA "query" 5 none (7 / 10)
      = [⟨cA, -(1 / 10), -1, 2⟩, ⟨cB, -(2 / 5), -1, 1⟩] := by
  rw [search_eq (some [(-1 : ℝ)]) (fun _ _ => [(-2 : ℝ), -1]) stA "query" 5 none
      (7 / 10) rfl rfl,
    searchCandidatesD_eval, mergeSort_pair]
  have hle : scoreLe ⟨cA, 7 / 10 * -1 + (1 - 7 / 10) * 2, -1, 2⟩
      ⟨cB, 7 / 10 * -1 + (1 - 7 / 10) * 1, -1, 1⟩ = true := by
    simp only [scoreLe, decide_eq_true_eq]
    norm_num
  rw [hle]
  simp only [if_true]
  norm_num [SearchResult.mk.injEq]

/-- C4 counterexample. On a concrete store with a query embedding whose
cosine against every chunk is `-1` and raw sparse scores `[-2, -1]` (the
shape `rank_bm25.BM25Okapi` produces when its epsilon-floored IDF is
negative), the top returned result has fused score `-1/10 < 0`, refuting
`0 ≤ fusedScore`, and sparse component `2 > 1`, refuting the `[0, 1]`
sparse bound. -/
theorem search_score_bounds_cex :
    (⟨cA, -(1 / 10), -1, 2⟩ : SearchResult) ∈
        search (some [(-1 : ℝ)]) (fun _ _ => [(-2 : ℝ), -1]) stA "query" 5 none
          (7 / 10) ∧
    (⟨cA, -(1 / 10), -1, 2⟩ : SearchResult).score < 0 ∧
    1 < (⟨cA, -(1 / 10), -1, 2⟩ : SearchResult).bm25_score := by
  refine ⟨?_, by norm_num, by norm_num⟩
  rw [searchD_eval]
  exact List.mem_cons_self _ _

/-- Witness for C4's amended theorem at a concrete result. -/
theorem search_score_bounds_witness :
    ((⟨cB, 3 / 10, 0, 1⟩ : SearchResult) ∈
        search none (fun _ _ => [(1 : ℝ), 2]) stA "mammal" 5 none (7 / 10) ∧
      (0 : ℝ) ≤ 7 / 10 ∧ (7 : ℝ) / 10 ≤ 1 ∧
      (∀ s ∈ [(1 : ℝ), 2], 0 ≤ s)) ∧
    (0 ≤ (⟨cB, 3 / 10, 0, 1⟩ : SearchResult).bm25_score ∧
      (⟨cB, 3 / 10, 0, 1⟩ : SearchResult).bm25_score ≤ 1) := by
  have hmem : (⟨cB, 3 / 10, 0, 1⟩ : SearchResult) ∈
      search none (fun _ _ => [(1 : ℝ), 2]) stA "mammal" 5 none (7 / 10) := by
    rw [searchA_eval]
    exact List.mem_cons_self _ _
  have hnn : ∀ s ∈ [(1 : ℝ), 2], 0 ≤ s := by
    intro s hs
    rcases List.mem_cons.1 hs with h | h
    · subst h; norm_num
    · simp only [List.mem_singleton] at h; subst h; norm_num
  exact ⟨⟨hmem, by norm_num, by norm_num, hnn⟩,
    (search_score_bounds none (fun _ _ => [(1 : ℝ), 2]) stA "mammal" 5 none (7 / 10)
      _ hmem (by norm_num) (by norm_num) hnn).2.1⟩

/-- Witness for C3 at a concrete result of a concrete search. -/
theorem search_fusion_witness :
    ((⟨cB, 3 / 10, 0, 1⟩ : SearchResult) ∈
        search none (fun _ _ => [(1 : ℝ), 2]) stA "mammal" 5 none (7 / 10)) ∧
    (⟨cB, 3 / 10, 0, 1⟩ : SearchResult).score
      = 7 / 10 * (⟨cB, 3 / 10, 0, 1⟩ : SearchResult).vector_score
        + (1 - 7 / 10) * (⟨cB, 3 / 10, 0, 1⟩ : SearchResult).bm25_score := by
  have hmem : (⟨cB, 3 / 10, 0, 1⟩ : SearchResult) ∈
      search none (fun _ _ => [(1 : ℝ), 2]) stA "mammal" 5 none (7 / 10) := by
    rw [searchA_eval]
    exact List.mem_cons_self _ _
  exact ⟨hmem, (search_fusion none (fun _ _ => [(1 : ℝ), 2]) stA "mammal" 5 none
    (7 / 10) _ hmem).1⟩

/-- C6 counterexample. With the filter set to the empty-string document id,
the Python truthiness test `if document_id and ...` skips the filter, and a
result whose `document_id` is `"doc2" ≠ ""` is returned. -/
theorem search_filter_cex :
    (⟨cB, 3 / 10, 0, 1⟩ : SearchResult) ∈
        search none (fun _ _ => [(1 : ℝ), 2]) stA "mammal" 5 (some "") (7 / 10) ∧
    (⟨cB, 3 / 10, 0, 1⟩ : SearchResult).chunk.document_id ≠ "" := by
  constructor
  · rw [searchC_eval]
    exact List.mem_cons_self _ _
  · intro h
    exact absurd h (by decide)

/-- Witness for C6's amended theorem: filtering on `doc2` at a concrete
store returns only `doc2` chunks. -/
theorem search_filter_witness :
    (("doc2" : String) ≠ "" ∧
      (⟨cB, 3 / 10, 0, 1⟩ : SearchResult) ∈
        search none (fun _ _ => [(1 : ℝ), 2]) stA "mammal" 5 (some "doc2") (7 / 10)) ∧
    (⟨cB, 3 / 10, 0, 1⟩ : SearchResult).chunk.document_id = "doc2" := by
  have hd : ("doc2" : String) ≠ "" := by decide
  have hmem : (⟨cB, 3 / 10, 0, 1⟩ : SearchResult) ∈
      search none (fun _ _ => [(1 : ℝ), 2]) stA "mammal" 5 (some "doc2") (7 / 10) := by
    rw [searchB_eval]
    exact List.mem_cons_self _ _
  exact ⟨⟨hd, hmem⟩, search_filter none (fun _ _ => [(1 : ℝ), 2]) stA "mammal" 5
    "doc2" (7 / 10) hd _ hmem⟩

/-- Witness for C7 at a concrete search whose two candidates get reordered
by score. -/
theorem search_ranking_witness :
    (stA.vectors.isNone = false ∧ stA.chunks_metadata.isEmpty = false ∧
      (searchCandidates none (fun _ _ => [(1 : ℝ), 2]) stA "mammal" none
        (7 / 10)).Nodup) ∧
    (search none (fun _ _ => [(1 : ℝ), 2]) stA "mammal" 5 none (7 / 10)).Pairwise
      (fun r1 r2 => r2.score ≤ r1.score) := by
  have hnd : (searchCandidates none (fun _ _ => [(1 : ℝ), 2]) stA "mammal" none
      (7 / 10)).Nodup := by
    rw [searchCandidatesA_eval]
    refine List.nodup_cons.2 ⟨?_, List.nodup_cons.2 ⟨by simp, List.nodup_nil⟩⟩
    intro hmem
    simp only [List.mem_singleton] at hmem
    have hch := congrArg SearchResult.chunk hmem
    exact absurd hch (by decide)
  exact ⟨⟨rfl, rfl, hnd⟩,
    (search_ranking none (fun _ _ => [(1 : ℝ), 2]) stA "mammal" 5 none (7 / 10)
      rfl rfl hnd).1⟩

end VectorStore
